import Mathlib

/-!
Verification of the Bandersnatch VRF signature engine (`src/ffi/rust/crypto`).

The repository orchestrates an external elliptic-curve VRF backend
(`ark_ec_vrfs`, suite `bandersnatch`): the spec treats the curve arithmetic,
ring-proof construction and hash functions as opaque capabilities.  We embed
that capability set as the `Backend` structure below and translate the
engine's own code (provers, verifiers, the LRU ring-context cache, the C-ABI
entry points) definition by definition from the Rust source.

Two generations of the engine coexist in the source tree and are modelled
separately:
 * `src/ffi/rust/crypto/src/ring_vrf.rs` - the module with typed
   `ProverError` / `VerifierError` results and a size-keyed context cache
   (`ring_context ring_size`); modelled as `ProverS.ring_vrf_sign`,
   `VerifierS.ring_vrf_verify`, `VerifierS.ietf_vrf_verify`.
 * `src/ffi/rust/crypto/src/lib.rs` - the flat C-ABI crate root whose
   `Prover` / `Verifier` use a single process-wide context of size
   `RING_SIZE = 1023` and `.unwrap()` on deserialization and indexing;
   modelled as the `lib_` definitions, where a Rust panic (an `unwrap` /
   out-of-bounds index) is modelled by the `Option` value `none`.

Byte strings are lists of byte values (`Bytes`).
-/

/-- Raw byte strings crossing the FFI boundary. -/
abbrev Bytes := List Nat

/-- Abstract interface of the external curve/VRF backend (`ark_ec_vrfs`
suites `bandersnatch::edwards`).  Each field is one operation the engine
calls; the engine never looks inside the carrier types.  `from_srs n`
is `RingContext::from_srs(n, pcs_params)` over the fixed embedded reference
string, returning `none` exactly when derivation fails (e.g. the ring size
exceeds the backend limit). -/
structure Backend where
  Secret : Type
  Pt : Type
  InputP : Type
  OutputP : Type
  RProof : Type
  IProof : Type
  Ctx : Type
  PKey : Type
  VKey : Type
  Comm : Type
  ProverB : Type
  VerifierB : Type
  vrf_input_point : Bytes → InputP
  secret_output : Secret → InputP → OutputP
  secret_public : Secret → Pt
  output_hash : OutputP → Bytes
  from_srs : Nat → Option Ctx
  prover_key : Ctx → List Pt → PKey
  mk_prover : Ctx → PKey → Nat → ProverB
  ring_prove : Secret → InputP → OutputP → Bytes → ProverB → RProof
  verifier_key : Ctx → List Pt → VKey
  commitment_of : VKey → Comm
  vk_from_commitment : Ctx → Comm → VKey
  mk_verifier : Ctx → VKey → VerifierB
  ring_verify : InputP → OutputP → Bytes → RProof → VerifierB → Bool
  ietf_prove : Secret → InputP → OutputP → Bytes → IProof
  ietf_verify : Pt → InputP → OutputP → Bytes → IProof → Bool
  ser_output : OutputP → Bytes
  ser_rproof : RProof → Bytes
  ser_iproof : IProof → Bytes
  deser_ring_sig : Bytes → Option (OutputP × RProof)
  deser_ietf_sig : Bytes → Option (OutputP × IProof)

/-- `Public`: the engine's wrapper around a backend curve point; the source
unwraps it with the `pk.0` pattern (`ring.iter().map(|pk| pk.0)`). -/
structure PublicK (B : Backend) where
  pt : B.Pt

/-- State of the ring-context cache of
`src/ffi/rust/crypto/src/ring_vrf/context.rs`: the `lru::LruCache` keyed by
ring size, listed in recency order, most recently used first. -/
abbrev CacheSt (B : Backend) := List (Nat × B.Ctx)

/-- Removing the (unique) entry for a key, as the `lru` crate does when it
re-inserts or promotes an existing key. -/
def eraseKey {α : Type} : List (Nat × α) → Nat → List (Nat × α)
  | [], _ => []
  | p :: ps, k => if p.1 = k then ps else p :: eraseKey ps k

/-- Cache lookup (`cache.get(&ring_size)` without the recency promotion). -/
def lookupKey {α : Type} (st : List (Nat × α)) (k : Nat) : Option α :=
  (st.find? (fun p => p.1 == k)).map Prod.snd

/-- `cache.put(k, v)` of an `LruCache` with capacity `cap`: insert at the
front, dropping the least-recently-used entry when capacity is exceeded. -/
def lruPut {α : Type} (cap : Nat) (k : Nat) (v : α) (st : List (Nat × α)) :
    List (Nat × α) :=
  ((k, v) :: eraseKey st k).take cap

/-- `RING_CONTEXT_CACHE_CAPACITY` in `context.rs`. -/
def RING_CONTEXT_CACHE_CAPACITY : Nat := 10

/-- `ring_context(ring_size)` of `src/ffi/rust/crypto/src/ring_vrf/context.rs`:
look the size up in the LRU cache, promoting the entry on a hit; on a miss
derive a fresh context with `RingContext::from_srs(ring_size, pcs_params)`
and insert it.  The source unwraps the derivation result
(`.unwrap()`), so a failed derivation is a panic, modelled as `none`. -/
def ring_context (B : Backend) (st : CacheSt B) (ring_size : Nat) :
    Option (B.Ctx × CacheSt B) :=
  match lookupKey st ring_size with
  | some ctx => some (ctx, (ring_size, ctx) :: eraseKey st ring_size)
  | none =>
    match B.from_srs ring_size with
    | some ctx => some (ctx, lruPut RING_CONTEXT_CACHE_CAPACITY ring_size ctx st)
    | none => none

/-- Invariant of the ring-context cache: at most the capacity of 10 entries,
every cached context equals a fresh derivation for its ring size, and the
ring sizes are pairwise distinct. -/
def cacheGood (B : Backend) (st : CacheSt B) : Prop :=
  st.length ≤ 10 ∧ (∀ p ∈ st, B.from_srs p.1 = some p.2) ∧
    (st.map Prod.fst).Nodup

/-- `RingContextError` of the fallible context module: typed
context-derivation failure (`commitment.rs` imports it from
`super::context` and propagates it via `CommitmentVerifierError`). -/
inductive RingContextError where
  | UnsupportedRingSize : Nat → RingContextError
deriving DecidableEq

/-- Modelled from the spec: the fallible `ring_context` /
`get_or_create(ring_size)` that `commitment.rs` calls with `?` and whose
`RingContextError` it re-exports is not among the source files provided
(the file at `ring_vrf/context.rs` holds the unwrap-based variant used by
`ring_vrf.rs`).  Per spec 4.2, derivation failure for an unsupported ring
size is surfaced as a typed context-derivation error returned to the
caller, not a panic; cache behavior is unchanged. -/
def ring_context_checked (B : Backend) (st : CacheSt B) (ring_size : Nat) :
    Except RingContextError B.Ctx × CacheSt B :=
  match lookupKey st ring_size with
  | some ctx => (.ok ctx, (ring_size, ctx) :: eraseKey st ring_size)
  | none =>
    match B.from_srs ring_size with
    | some ctx => (.ok ctx, lruPut RING_CONTEXT_CACHE_CAPACITY ring_size ctx st)
    | none => (.error (.UnsupportedRingSize ring_size), st)

/-- `ProverError` of `ring_vrf.rs`. -/
inductive ProverError where
  | SerializationError
  | InvalidProverIndex
deriving DecidableEq

/-- `VerifierError` of `ring_vrf.rs`. -/
inductive VerifierError where
  | DeserializationError
  | VerificationFailed
  | InvalidSignerKeyIndex
deriving DecidableEq

/-- The `Prover` actor: secret key, ordered ring of public keys, and the
prover's claimed index in that ring (identical fields in `lib.rs` and
`ring_vrf.rs`). -/
structure ProverS (B : Backend) where
  prover_idx : Nat
  secret : B.Secret
  ring : List (PublicK B)

/-- `Prover::new(ring, prover_secret, prover_idx)`: a plain constructor,
no validation of the index or the secret against the ring. -/
def ProverS.new (B : Backend) (ring : List (PublicK B)) (prover_secret : B.Secret)
    (prover_idx : Nat) : ProverS B :=
  ⟨prover_idx, prover_secret, ring⟩

/-- `Prover::ring_vrf_sign` of `ring_vrf.rs`: input point from the input
data, output from the secret, context from the size-keyed cache
(`ring_context(pts.len())`, threading the cache state), proving key from
the ring's unwrapped points in order, ring proof binding output, input,
aux data and the prover index; the result is the compressed
`RingVrfSignature { output, proof }`.  A panic inside `ring_context` is
`none`. -/
def ProverS.ring_vrf_sign (B : Backend) (st : CacheSt B) (P : ProverS B)
    (vrf_input_data aux_data : Bytes) :
    Option (Except ProverError Bytes × CacheSt B) :=
  let input := B.vrf_input_point vrf_input_data
  let output := B.secret_output P.secret input
  let pts := P.ring.map PublicK.pt
  match ring_context B st pts.length with
  | none => none
  | some (ring_ctx, st2) =>
    let pkey := B.prover_key ring_ctx pts
    let prover := B.mk_prover ring_ctx pkey P.prover_idx
    let proof := B.ring_prove P.secret input output aux_data prover
    some (.ok (B.ser_output output ++ B.ser_rproof proof), st2)

/-- `Prover::ietf_vrf_sign` of `ring_vrf.rs`: same output derivation, direct
IETF proof, no ring context. -/
def ProverS.ietf_vrf_sign (B : Backend) (P : ProverS B)
    (vrf_input_data aux_data : Bytes) : Except ProverError Bytes :=
  let input := B.vrf_input_point vrf_input_data
  let output := B.secret_output P.secret input
  let proof := B.ietf_prove P.secret input output aux_data
  .ok (B.ser_output output ++ B.ser_iproof proof)

/-- The `Verifier` actor: a ring commitment (computed once at construction)
plus the ring itself. -/
structure VerifierS (B : Backend) where
  commitment : B.Comm
  ring : List (PublicK B)

/-- `Verifier::new(ring)` of `ring_vrf.rs`: context for `ring.len()` from
the cache, verifier key over the ring's points, commitment stored. -/
def VerifierS.new (B : Backend) (st : CacheSt B) (ring : List (PublicK B)) :
    Option (VerifierS B × CacheSt B) :=
  let pts := ring.map PublicK.pt
  match ring_context B st ring.length with
  | none => none
  | some (ring_ctx, st2) =>
    some (⟨B.commitment_of (B.verifier_key ring_ctx pts), ring⟩, st2)

/-- `Verifier::ring_vrf_verify` of `ring_vrf.rs`: deserialize (typed
`DeserializationError` on failure), recompute the input point, fetch the
cached context for the verifier's ring size, rebuild the verifier key from
the stored commitment, check the ring proof, and on success return the
32-byte truncated hash of the embedded output. -/
def VerifierS.ring_vrf_verify (B : Backend) (st : CacheSt B) (V : VerifierS B)
    (vrf_input_data aux_data signature : Bytes) :
    Option (Except VerifierError Bytes × CacheSt B) :=
  match B.deser_ring_sig signature with
  | none => some (.error .DeserializationError, st)
  | some (output, proof) =>
    let input := B.vrf_input_point vrf_input_data
    match ring_context B st V.ring.length with
    | none => none
    | some (ring_ctx, st2) =>
      let vk := B.vk_from_commitment ring_ctx V.commitment
      let verifier := B.mk_verifier ring_ctx vk
      if B.ring_verify input output aux_data proof verifier
      then some (.ok ((B.output_hash output).take 32), st2)
      else some (.error .VerificationFailed, st2)

/-- `Verifier::ietf_vrf_verify` of `ring_vrf.rs`: deserialize (typed error),
bounds-checked `self.ring.get(signer_key_index)` (typed
`InvalidSignerKeyIndex` when out of range), check the IETF proof against
that one public key, and on success return the truncated output hash. -/
def VerifierS.ietf_vrf_verify (B : Backend) (V : VerifierS B)
    (vrf_input_data aux_data signature : Bytes) (signer_key_index : Nat) :
    Except VerifierError Bytes :=
  match B.deser_ietf_sig signature with
  | none => .error .DeserializationError
  | some (output, proof) =>
    let input := B.vrf_input_point vrf_input_data
    match V.ring.get? signer_key_index with
    | none => .error .InvalidSignerKeyIndex
    | some pk =>
      if B.ietf_verify pk.pt input output aux_data proof
      then .ok ((B.output_hash output).take 32)
      else .error .VerificationFailed

/-- `RING_SIZE` in `lib.rs`. -/
def RING_SIZE : Nat := 1023

/-- `ring_context()` of `lib.rs`: one process-wide context derived once for
the fixed `RING_SIZE = 1023`; the `OnceLock` initializer unwraps, so a
failed derivation is a panic (`none`). -/
def lib_ring_context (B : Backend) : Option B.Ctx :=
  B.from_srs RING_SIZE

/-- `Prover::ring_vrf_sign` of `lib.rs`: identical proof construction, but
the context is the fixed `RING_SIZE`-sized singleton, regardless of
`ring.len()`. -/
def ProverS.lib_ring_vrf_sign (B : Backend) (P : ProverS B)
    (vrf_input_data aux_data : Bytes) : Option Bytes :=
  match lib_ring_context B with
  | none => none
  | some ring_ctx =>
    let input := B.vrf_input_point vrf_input_data
    let output := B.secret_output P.secret input
    let pts := P.ring.map PublicK.pt
    let pkey := B.prover_key ring_ctx pts
    let prover := B.mk_prover ring_ctx pkey P.prover_idx
    let proof := B.ring_prove P.secret input output aux_data prover
    some (B.ser_output output ++ B.ser_rproof proof)

/-- `Verifier::new(ring)` of `lib.rs` (fixed-size singleton context). -/
def VerifierS.lib_new (B : Backend) (ring : List (PublicK B)) :
    Option (VerifierS B) :=
  match lib_ring_context B with
  | none => none
  | some ring_ctx =>
    some ⟨B.commitment_of (B.verifier_key ring_ctx (ring.map PublicK.pt)), ring⟩

/-- `Verifier::ring_vrf_verify` of `lib.rs`: note
`RingVrfSignature::deserialize_compressed(signature).unwrap()` - malformed
signature bytes are a panic (`none`), not an `Err`; a cryptographically
failed check is `Err(())`. -/
def VerifierS.lib_ring_vrf_verify (B : Backend) (V : VerifierS B)
    (vrf_input_data aux_data signature : Bytes) :
    Option (Except Unit Bytes) :=
  match B.deser_ring_sig signature with
  | none => none
  | some (output, proof) =>
    match lib_ring_context B with
    | none => none
    | some ring_ctx =>
      let input := B.vrf_input_point vrf_input_data
      let vk := B.vk_from_commitment ring_ctx V.commitment
      let verifier := B.mk_verifier ring_ctx vk
      if B.ring_verify input output aux_data proof verifier
      then some (.ok ((B.output_hash output).take 32))
      else some (.error ())

/-- `Verifier::ietf_vrf_verify` of `lib.rs`: unwrapped deserialization and
the unchecked indexing `&self.ring[signer_key_index]` - both are panics
(`none`) rather than typed errors. -/
def VerifierS.lib_ietf_vrf_verify (B : Backend) (V : VerifierS B)
    (vrf_input_data aux_data signature : Bytes) (signer_key_index : Nat) :
    Option (Except Unit Bytes) :=
  match B.deser_ietf_sig signature with
  | none => none
  | some (output, proof) =>
    let input := B.vrf_input_point vrf_input_data
    match V.ring.get? signer_key_index with
    | none => none
    | some pk =>
      if B.ietf_verify pk.pt input output aux_data proof
      then some (.ok ((B.output_hash output).take 32))
      else some (.error ())

/-- `generate_ring_signature` C-ABI entry of `lib.rs`, after pointer
marshaling: builds `Prover::new(ring, secret, prover_idx)` with the index
passed through unconditionally, signs, and asserts the buffer is exactly
784 bytes before copying it out (a failed assertion is a panic, `none`). -/
def generate_ring_signature (B : Backend) (ring : List (PublicK B))
    (vrf_input_data aux_data : Bytes) (prover_idx : Nat)
    (prover_secret : B.Secret) : Option Bytes :=
  match ProverS.lib_ring_vrf_sign B (ProverS.new B ring prover_secret prover_idx)
      vrf_input_data aux_data with
  | none => none
  | some signature => if signature.length = 784 then some signature else none

/-- Follows the spec's words (4.4): a reference signer that freshly derives
a `RingContext` sized to exactly `ring.len()` (fresh derivation stands for
the cache by the spec's staleness-impossible invariant) and scopes the
proving key to the ring's points point-for-point, in order.  Compared
against the source signers in the refinement claims. -/
def spec_ring_vrf_sign (B : Backend) (P : ProverS B)
    (vrf_input_data aux_data : Bytes) : Option Bytes :=
  match B.from_srs P.ring.length with
  | none => none
  | some ring_ctx =>
    let input := B.vrf_input_point vrf_input_data
    let output := B.secret_output P.secret input
    let pts := P.ring.map PublicK.pt
    let prover := B.mk_prover ring_ctx (B.prover_key ring_ctx pts) P.prover_idx
    some (B.ser_output output ++ B.ser_rproof (B.ring_prove P.secret input output aux_data prover))

/-- Abstract interface of the `ed25519_consensus` library used by
`src/ffi/rust/crypto/src/ed25519.rs`: parsing a 32-byte verification key
(which rejects invalid encodings) and the ZIP-215 verification itself. -/
structure Ed25519Backend where
  VK : Type
  vk_try_from : Bytes → Option VK
  vk_verify : VK → Bytes → Bytes → Bool

/-- `ed25519_verify` of `ed25519.rs`, with each raw pointer modelled as an
`Option Bytes` (`none` is a null pointer; a valid pointer carries the bytes
reachable through it).  Mirrors the source order: null checks on key and
signature, the null-message check (`message` may be null only when
`message_len == 0`), the 32/64-byte reads, the empty-message case, key
parsing, and the ZIP-215 check; returns `0` on success and `-1`
otherwise. -/
def ed25519_verify (E : Ed25519Backend)
    (public_key signature message : Option Bytes) (message_len : Nat) : Int :=
  if public_key.isNone || signature.isNone then -1
  else if message.isNone && decide (0 < message_len) then -1
  else
    let pk_bytes := (public_key.getD []).take 32
    let sig_bytes := (signature.getD []).take 64
    let msg := if message_len = 0 then [] else (message.getD []).take message_len
    match E.vk_try_from pk_bytes with
    | none => -1
    | some vk => if E.vk_verify vk sig_bytes msg then 0 else -1

/-- The validity condition `ed25519_verify` is meant to decide: non-null
key and signature pointers, a message that is null only if empty, a
well-formed verification key, and a ZIP-215-valid signature on the
message. -/
def ed25519_valid (E : Ed25519Backend)
    (public_key signature message : Option Bytes) (message_len : Nat) : Prop :=
  ∃ pkb sigb, public_key = some pkb ∧ signature = some sigb ∧
    ¬(message = none ∧ 0 < message_len) ∧
    ∃ vk, E.vk_try_from (pkb.take 32) = some vk ∧
      E.vk_verify vk (sigb.take 64)
        (if message_len = 0 then [] else (message.getD []).take message_len) = true

/-- Folding a byte string into a number; used by the toy backends below. -/
def encB (bs : Bytes) : Nat := bs.foldl (fun a b => Nat.pair a b + 1) 0

/-- Toy derivation limit mirroring the spec's maximum practical ring size. -/
def toyFromSrs (n : Nat) : Option Nat := if n ≤ 1023 then some n else none

/-- Toy ring verification: accept exactly the transcript the toy prover
builds for this input, output, aux data and verifier state. -/
def toyRingVerify (inp out : Nat) (aux : Bytes) (prf ver : Nat) : Bool :=
  decide (prf = Nat.pair inp (Nat.pair out (Nat.pair (encB aux) ver)))

/-- Toy IETF verification against one public key. -/
def toyIetfVerify (pk inp out : Nat) (aux : Bytes) (prf : Nat) : Bool :=
  decide (prf = Nat.pair inp (Nat.pair out (Nat.pair (encB aux) pk)))

/-- Rigid toy ring verification: additionally pins the output to the one
produced by secret `0`, so that for a fixed input, aux and verifier exactly
one (output, proof) pair is accepted. -/
def toyRingVerifyRigid (inp out : Nat) (aux : Bytes) (prf ver : Nat) : Bool :=
  decide (out = Nat.pair 0 inp ∧
    prf = Nat.pair inp (Nat.pair out (Nat.pair (encB aux) ver)))

/-- Rigid toy IETF verification. -/
def toyIetfVerifyRigid (pk inp out : Nat) (aux : Bytes) (prf : Nat) : Bool :=
  decide (out = Nat.pair 0 inp ∧
    prf = Nat.pair inp (Nat.pair out (Nat.pair (encB aux) pk)))

/-- A small executable backend: every carrier is `Nat`, prover and verifier
states encode the context and the key material with `Nat.pair`, proofs are
transcripts, serialization is one number per field, and verification
re-checks the transcript.  It realizes the interface assumptions
(round-trip, completeness) of the abstract theorems and instantiates their
witnesses. -/
@[reducible] def ToyA : Backend where
  Secret := Nat
  Pt := Nat
  InputP := Nat
  OutputP := Nat
  RProof := Nat
  IProof := Nat
  Ctx := Nat
  PKey := Nat
  VKey := Nat
  Comm := Nat
  ProverB := Nat
  VerifierB := Nat
  vrf_input_point := encB
  secret_output := Nat.pair
  secret_public := fun s => s
  output_hash := fun o => List.replicate 64 o
  from_srs := toyFromSrs
  prover_key := fun c pts => Nat.pair c (encB pts)
  mk_prover := fun c pk _ => Nat.pair c pk
  ring_prove := fun _ inp out aux pr => Nat.pair inp (Nat.pair out (Nat.pair (encB aux) pr))
  verifier_key := fun c pts => Nat.pair c (encB pts)
  commitment_of := fun vk => vk
  vk_from_commitment := fun _ comm => comm
  mk_verifier := fun c vk => Nat.pair c vk
  ring_verify := toyRingVerify
  ietf_prove := fun s inp out aux => Nat.pair inp (Nat.pair out (Nat.pair (encB aux) s))
  ietf_verify := toyIetfVerify
  ser_output := fun o => [o]
  ser_rproof := fun p => [p]
  ser_iproof := fun p => [p]
  deser_ring_sig := fun bs => match bs with | [o, p] => some (o, p) | _ => none
  deser_ietf_sig := fun bs => match bs with | [o, p] => some (o, p) | _ => none

/-- `ToyA` with the rigid verifiers: for a fixed instance the accepting
signature is unique, an idealization of cryptographic soundness. -/
@[reducible] def ToyB : Backend :=
  { ToyA with ring_verify := toyRingVerifyRigid, ietf_verify := toyIetfVerifyRigid }

/-- `ToyA` with a fixed-width serialization: outputs compress to 32 bytes
and ring proofs to 752 bytes, matching the 784-byte signature layout. -/
@[reducible] def Toy784 : Backend :=
  { ToyA with
      ser_output := fun o => (List.range 32).map (fun k => o / 256 ^ k % 256),
      ser_rproof := fun p => (List.range 752).map (fun k => p / 256 ^ k % 256) }

/-- Toy instance of the `ed25519_consensus` interface: keys are their own
32-byte encodings; verification accepts everything. -/
@[reducible] def EdToy : Ed25519Backend where
  VK := Bytes
  vk_try_from := fun bs => if bs.length = 32 then some bs else none
  vk_verify := fun _ _ _ => true

theorem eraseKey_sublist {α : Type} :
    ∀ (st : List (Nat × α)) (k : Nat), List.Sublist (eraseKey st k) st
  | [], _ => List.Sublist.refl _
  | p :: ps, k => by
    unfold eraseKey
    by_cases h : p.1 = k
    · rw [if_pos h]; exact List.sublist_cons_self p ps
    · rw [if_neg h]; exact (eraseKey_sublist ps k).cons₂ p

theorem lookupKey_mem {α : Type} {st : List (Nat × α)} {k : Nat} {c : α}
    (h : lookupKey st k = some c) : (k, c) ∈ st := by
  unfold lookupKey at h
  cases hf : st.find? (fun p => p.1 == k) with
  | none => rw [hf] at h; cases h
  | some p =>
    rw [hf] at h
    obtain ⟨a, b⟩ := p
    have hm := List.mem_of_find?_eq_some hf
    have hk : a = k := by have := List.find?_some hf; simpa using this
    have hc : b = c := by simpa using h
    rw [← hk, ← hc]; exact hm

theorem lookupKey_none {α : Type} {st : List (Nat × α)} {k : Nat}
    (h : lookupKey st k = none) : ∀ p ∈ st, p.1 ≠ k := by
  unfold lookupKey at h
  cases hf : st.find? (fun p => p.1 == k) with
  | some p => rw [hf] at h; cases h
  | none =>
    intro p hp
    have := List.find?_eq_none.mp hf p hp
    simpa using this

theorem eraseKey_of_not_mem {α : Type} {st : List (Nat × α)} {k : Nat}
    (h : ∀ p ∈ st, p.1 ≠ k) : eraseKey st k = st := by
  induction st with
  | nil => rfl
  | cons p ps ih =>
    unfold eraseKey
    rw [if_neg (h p (List.mem_cons_self p ps)),
      ih (fun q hq => h q (List.mem_cons_of_mem p hq))]

theorem eraseKey_length {α : Type} {st : List (Nat × α)} {k : Nat}
    (h : ∃ c, (k, c) ∈ st) : (eraseKey st k).length + 1 = st.length := by
  induction st with
  | nil => obtain ⟨c, hc⟩ := h; cases hc
  | cons p ps ih =>
    unfold eraseKey
    by_cases hk : p.1 = k
    · rw [if_pos hk]; rfl
    · rw [if_neg hk]
      obtain ⟨c, hc⟩ := h
      rcases List.mem_cons.mp hc with hc1 | hc2
      · exact absurd (by rw [← hc1]) hk
      · simpa using ih ⟨c, hc2⟩

theorem keys_eraseKey {α : Type} {st : List (Nat × α)} {k : Nat}
    (h : (st.map Prod.fst).Nodup) : k ∉ (eraseKey st k).map Prod.fst := by
  induction st with
  | nil => simp [eraseKey]
  | cons p ps ih =>
    rw [List.map_cons] at h
    unfold eraseKey
    by_cases hk : p.1 = k
    · rw [if_pos hk]
      intro hmem
      have h1 := (List.nodup_cons.mp h).1
      rw [hk] at h1
      exact h1 hmem
    · rw [if_neg hk]
      intro hmem
      rw [List.map_cons] at hmem
      rcases List.mem_cons.mp hmem with h1 | h2
      · exact hk h1.symm
      · exact ih (List.nodup_cons.mp h).2 h2

/-- Under the cache invariant, when fresh derivation succeeds for a size,
`ring_context` cannot panic and returns exactly the fresh context. -/
theorem ring_context_of_good {B : Backend} {st : CacheSt B} {n : Nat} {c : B.Ctx}
    (hgood : cacheGood B st) (hc : B.from_srs n = some c) :
    ∃ st2, ring_context B st n = some (c, st2) := by
  unfold ring_context
  cases hlk : lookupKey st n with
  | some ctx =>
    have hmem := lookupKey_mem hlk
    have := hgood.2.1 (n, ctx) hmem
    simp only at this
    rw [hc] at this
    obtain rfl : c = ctx := by injection this
    exact ⟨_, rfl⟩
  | none => rw [hc]; exact ⟨_, rfl⟩

/-- C6: the ring-context cache of `context.rs` never holds more than its
capacity of 10 entries, every context it returns (hit or miss) equals the
fresh derivation `from_srs` for the requested ring size, the invariant is
preserved by every access - so it also holds after an entry has been
evicted and later re-derived - and a miss at full capacity evicts exactly
the least-recently-used entry (the last in recency order).  The empty
initial cache satisfies the invariant, so every reachable state does. -/
theorem c6_ring_context_cache (B : Backend) (st : CacheSt B) (n : Nat)
    (ctx : B.Ctx) (st2 : CacheSt B) (hgood : cacheGood B st)
    (h : ring_context B st n = some (ctx, st2)) :
    B.from_srs n = some ctx ∧ cacheGood B st2 ∧ st2.length ≤ 10 ∧
      (lookupKey st n = none → st.length = 10 → st2 = (n, ctx) :: st.dropLast) ∧
      cacheGood B ([] : CacheSt B) := by
  obtain ⟨hlen, hfresh, hnd⟩ := hgood
  have hinit : cacheGood B ([] : CacheSt B) := ⟨by simp, by simp, by simp⟩
  unfold ring_context at h
  cases hlk : lookupKey st n with
  | some c =>
    rw [hlk] at h
    have h' := Option.some.inj h
    rw [Prod.mk.injEq] at h'
    obtain ⟨h1, h2⟩ := h'
    subst h1
    subst h2
    have hmem := lookupKey_mem hlk
    have hfs : B.from_srs n = some c := hfresh (n, c) hmem
    have hlen2 : ((n, c) :: eraseKey st n).length ≤ 10 := by
      rw [List.length_cons, eraseKey_length ⟨c, hmem⟩]
      exact hlen
    refine ⟨hfs, ⟨hlen2, ?_, ?_⟩, hlen2, ?_, hinit⟩
    · intro p hp
      rcases List.mem_cons.mp hp with h1 | h2
      · rw [h1]; exact hfs
      · exact hfresh p ((eraseKey_sublist st n).subset h2)
    · rw [List.map_cons]
      exact List.nodup_cons.mpr
        ⟨keys_eraseKey hnd,
          List.Nodup.sublist ((eraseKey_sublist st n).map Prod.fst) hnd⟩
    · intro habs
      exact absurd habs (by simp)
  | none =>
    rw [hlk] at h
    cases hfs : B.from_srs n with
    | none => rw [hfs] at h; cases h
    | some c =>
      rw [hfs] at h
      have h' := Option.some.inj h
      rw [Prod.mk.injEq] at h'
      obtain ⟨h1, h2⟩ := h'
      subst h1
      subst h2
      have herase : eraseKey st n = st := eraseKey_of_not_mem (lookupKey_none hlk)
      have hkeys : n ∉ st.map Prod.fst := by
        intro hmem
        obtain ⟨p, hp, hpn⟩ := List.mem_map.mp hmem
        exact lookupKey_none hlk p hp hpn
      have hst2 : lruPut RING_CONTEXT_CACHE_CAPACITY n c st = ((n, c) :: st).take 10 := by
        unfold lruPut RING_CONTEXT_CACHE_CAPACITY
        rw [herase]
      rw [hst2]
      have hlen2 : (((n, c) :: st).take 10).length ≤ 10 := by
        rw [List.length_take]
        exact min_le_left _ _
      refine ⟨rfl, ⟨hlen2, ?_, ?_⟩, hlen2, ?_, hinit⟩
      · intro p hp
        rcases List.mem_cons.mp (List.mem_of_mem_take hp) with h1 | h2
        · rw [h1]; exact hfs
        · exact hfresh p h2
      · rw [List.map_take]
        refine List.Nodup.sublist (List.take_sublist _ _) ?_
        rw [List.map_cons]
        exact List.nodup_cons.mpr ⟨hkeys, hnd⟩
      · intro _ hlen10
        rw [List.take_succ_cons, List.dropLast_eq_take, hlen10]

/-- C6 witness: a concrete miss on the empty cache, checked end to end. -/
theorem c6_witness :
    cacheGood ToyA ([] : CacheSt ToyA) ∧
      ring_context ToyA [] 3 = some (3, [(3, 3)]) ∧
      (ToyA.from_srs 3 = some 3 ∧ cacheGood ToyA [(3, 3)] ∧
        ([(3, 3)] : CacheSt ToyA).length ≤ 10 ∧
        (lookupKey ([] : CacheSt ToyA) 3 = none → ([] : CacheSt ToyA).length = 10 →
          ([(3, 3)] : CacheSt ToyA) = (3, 3) :: List.dropLast []) ∧
        cacheGood ToyA ([] : CacheSt ToyA)) :=
  ⟨⟨by simp, by simp, by simp⟩, rfl,
    c6_ring_context_cache ToyA [] 3 3 [(3, 3)] ⟨by simp, by simp, by simp⟩ rfl⟩

/-- C7: when context derivation fails because the ring size exceeds the
backend limit, the fallible `ring_context` surfaces the typed
`RingContextError` to the caller - by construction it has no panic
outcome (only reference-string corruption, which is outside this
function's result type, may abort). -/
theorem c7_checked_context_error (B : Backend) (st : CacheSt B) (n : Nat)
    (hgood : cacheGood B st) (hfail : B.from_srs n = none) :
    ring_context_checked B st n = (.error (.UnsupportedRingSize n), st) := by
  have hlk : lookupKey st n = none := by
    cases hf : lookupKey st n with
    | none => rfl
    | some c =>
      have h2 : B.from_srs n = some c := hgood.2.1 (n, c) (lookupKey_mem hf)
      rw [hfail] at h2
      exact Option.noConfusion h2
  unfold ring_context_checked
  rw [hlk, hfail]

/-- C7 witness: ring size 2000 exceeds the toy backend limit of 1023. -/
theorem c7_witness :
    cacheGood ToyA ([] : CacheSt ToyA) ∧ ToyA.from_srs 2000 = none ∧
      ring_context_checked ToyA [] 2000 =
        (.error (.UnsupportedRingSize 2000), ([] : CacheSt ToyA)) :=
  ⟨⟨by simp, by simp, by simp⟩, rfl,
    c7_checked_context_error ToyA [] 2000 ⟨by simp, by simp, by simp⟩ rfl⟩

/-- C4 (amended): the `ring_vrf.rs` Verifier fails with the typed
`InvalidSignerKeyIndex` condition on every out-of-range signer key index,
for all inputs and well-formed signature bytes, with no out-of-bounds
access (the lookup is the bounds-checked `ring.get`); the `lib.rs`
Verifier instead panics, see the counterexample. -/
theorem c4_ietf_invalid_index (B : Backend) (V : VerifierS B)
    (inp aux sig : Bytes) (k : Nat) (s : B.OutputP × B.IProof)
    (hk : V.ring.length ≤ k) (hwf : B.deser_ietf_sig sig = some s) :
    VerifierS.ietf_vrf_verify B V inp aux sig k = .error .InvalidSignerKeyIndex := by
  have hget : V.ring.get? k = none := List.get?_eq_none.mpr hk
  obtain ⟨out, prf⟩ := s
  simp only [VerifierS.ietf_vrf_verify, hwf, hget]

/-- C4 counterexample: the claim quantifies over every verifier in the
source, but the `lib.rs` Verifier reads `self.ring[signer_key_index]`
unchecked: on an empty ring with index 0 and well-formed signature bytes
it panics (modelled `none`) instead of failing with the invalid-index
condition. -/
theorem c4_counterexample :
    VerifierS.lib_ietf_vrf_verify ToyA ⟨0, []⟩ [1] [2] [4, 5] 0 = none := rfl

/-- C4 witness: the empty ring with index 1 on the `ring_vrf.rs` path. -/
theorem c4_witness :
    ((⟨0, []⟩ : VerifierS ToyA).ring.length ≤ 1) ∧
      ToyA.deser_ietf_sig [4, 5] = some (4, 5) ∧
      VerifierS.ietf_vrf_verify ToyA ⟨0, []⟩ [1] [2] [4, 5] 1 =
        .error .InvalidSignerKeyIndex :=
  ⟨by simp, rfl,
    c4_ietf_invalid_index ToyA ⟨0, []⟩ [1] [2] [4, 5] 1 (4, 5) (by simp) rfl⟩

/-- C10: `Prover::new` accepts any ring, secret and index without
validation and always constructs the corresponding `Prover`; no signing
path ever returns `ProverError::InvalidProverIndex`; and
`generate_ring_signature` passes `prover_idx` into the `Prover`
unconditionally. -/
theorem c10_no_prover_index_validation (B : Backend) :
    (∀ (ring : List (PublicK B)) (secret : B.Secret) (idx : Nat),
      ProverS.new B ring secret idx = ⟨idx, secret, ring⟩) ∧
    (∀ (st : CacheSt B) (P : ProverS B) (inp aux : Bytes) (st2 : CacheSt B),
      ProverS.ring_vrf_sign B st P inp aux ≠
        some (.error .InvalidProverIndex, st2)) ∧
    (∀ (P : ProverS B) (inp aux : Bytes),
      ProverS.ietf_vrf_sign B P inp aux ≠ .error .InvalidProverIndex) ∧
    (∀ (ring : List (PublicK B)) (inp aux : Bytes) (idx : Nat) (secret : B.Secret),
      generate_ring_signature B ring inp aux idx secret =
        match ProverS.lib_ring_vrf_sign B ⟨idx, secret, ring⟩ inp aux with
        | none => none
        | some s => if s.length = 784 then some s else none) := by
  refine ⟨fun _ _ _ => rfl, ?_, ?_, fun _ _ _ _ _ => rfl⟩
  · intro st P inp aux st2 h
    simp only [ProverS.ring_vrf_sign] at h
    cases hrc : ring_context B st (P.ring.map PublicK.pt).length with
    | none => rw [hrc] at h; cases h
    | some cs => rw [hrc] at h; simp at h
  · intro P inp aux h
    simp only [ProverS.ietf_vrf_sign] at h
    cases h

/-- Whatever the cache state, a ring signature that comes back from
`ring_vrf_sign` serializes the VRF output derived from the signer's secret
and the input data, followed by some ring proof. -/
theorem ring_sign_shape {B : Backend} {st : CacheSt B} {P : ProverS B}
    {inp aux : Bytes} {r : Except ProverError Bytes} {st2 : CacheSt B}
    (h : ProverS.ring_vrf_sign B st P inp aux = some (r, st2)) :
    ∃ prf, r = .ok (B.ser_output (B.secret_output P.secret (B.vrf_input_point inp))
      ++ B.ser_rproof prf) := by
  simp only [ProverS.ring_vrf_sign] at h
  cases hrc : ring_context B st (P.ring.map PublicK.pt).length with
  | none => rw [hrc] at h; cases h
  | some cs =>
    rw [hrc] at h
    have h' := Option.some.inj h
    rw [Prod.mk.injEq] at h'
    exact ⟨_, h'.1.symm⟩

/-- A ring verification that returns a hash computed it as the truncated
output hash of the deserialized signature's output point. -/
theorem ring_verify_ok_hash {B : Backend} {st : CacheSt B} {V : VerifierS B}
    {inp aux sig h : Bytes} {st2 : CacheSt B}
    (hv : VerifierS.ring_vrf_verify B st V inp aux sig = some (.ok h, st2)) :
    ∃ out prf, B.deser_ring_sig sig = some (out, prf) ∧
      h = (B.output_hash out).take 32 := by
  simp only [VerifierS.ring_vrf_verify] at hv
  split at hv
  · simp at hv
  · split at hv
    · cases hv
    · split at hv
      · simp only [Option.some.injEq, Prod.mk.injEq] at hv
        rename_i x1 out prf heq x2 c st3 heq2 hb
        exact ⟨out, prf, heq, (Except.ok.inj hv.1).symm⟩
      · simp at hv

/-- An IETF verification that returns a hash computed it as the truncated
output hash of the deserialized signature's output point. -/
theorem ietf_verify_ok_hash {B : Backend} {V : VerifierS B}
    {inp aux sig h : Bytes} {k : Nat}
    (hv : VerifierS.ietf_vrf_verify B V inp aux sig k = .ok h) :
    ∃ out prf, B.deser_ietf_sig sig = some (out, prf) ∧
      h = (B.output_hash out).take 32 := by
  simp only [VerifierS.ietf_vrf_verify] at hv
  split at hv
  · cases hv
  · split at hv
    · cases hv
    · split at hv
      · rename_i x1 out prf heq x2 pk heq2 hb
        exact ⟨out, prf, heq, (Except.ok.inj hv).symm⟩
      · cases hv

/-- C1: cross-mode output equality.  For the same secret key and the same
input data - whatever (possibly different) aux data each mode uses, and
whatever cache states and verifiers are involved - the 32-byte hash
returned by a successful `ring_vrf_verify` of a `ring_vrf_sign` signature
equals the 32-byte hash returned by a successful `ietf_vrf_verify` of an
`ietf_vrf_sign` signature, assuming only that the backend codec
round-trips each signature format. -/
theorem c1_cross_mode_equality (B : Backend)
    (hrt : ∀ o p, B.deser_ring_sig (B.ser_output o ++ B.ser_rproof p) = some (o, p))
    (hrtI : ∀ o p, B.deser_ietf_sig (B.ser_output o ++ B.ser_iproof p) = some (o, p))
    (P1 P2 : ProverS B) (hsec : P1.secret = P2.secret)
    (stS stS2 stV stV2 : CacheSt B) (V1 V2 : VerifierS B)
    (inp auxRS auxRV auxIS auxIV sigR sigI h1 h2 : Bytes) (k : Nat)
    (hs1 : ProverS.ring_vrf_sign B stS P1 inp auxRS = some (.ok sigR, stS2))
    (hv1 : VerifierS.ring_vrf_verify B stV V1 inp auxRV sigR = some (.ok h1, stV2))
    (hs2 : ProverS.ietf_vrf_sign B P2 inp auxIS = .ok sigI)
    (hv2 : VerifierS.ietf_vrf_verify B V2 inp auxIV sigI k = .ok h2) :
    h1 = h2 := by
  obtain ⟨prf, hshape⟩ := ring_sign_shape hs1
  have hsig : sigR = B.ser_output (B.secret_output P1.secret (B.vrf_input_point inp))
      ++ B.ser_rproof prf := Except.ok.inj hshape
  obtain ⟨out, prf2, hdes, hh1⟩ := ring_verify_ok_hash hv1
  rw [hsig, hrt] at hdes
  have hout := (Prod.mk.injEq _ _ _ _).mp (Option.some.inj hdes)
  have hsigI : B.ser_output (B.secret_output P2.secret (B.vrf_input_point inp))
      ++ B.ser_iproof (B.ietf_prove P2.secret (B.vrf_input_point inp)
        (B.secret_output P2.secret (B.vrf_input_point inp)) auxIS) = sigI :=
    Except.ok.inj hs2
  obtain ⟨out2, prfI, hdesI, hh2⟩ := ietf_verify_ok_hash hv2
  rw [← hsigI, hrtI] at hdesI
  have hout2 := (Prod.mk.injEq _ _ _ _).mp (Option.some.inj hdesI)
  rw [hh1, hh2, ← hout.1, ← hout2.1, hsec]

/-- C1 witness: a full concrete run of both modes on the toy backend, same
secret and input data, different aux data, ending in the same hash. -/
theorem c1_witness :
    ProverS.ring_vrf_sign ToyA [] ⟨0, 0, [⟨0⟩]⟩ [1] [2] =
      some (.ok [4, 121638843], [(1, 1)]) ∧
    VerifierS.ring_vrf_verify ToyA [] ⟨3, [⟨0⟩]⟩ [1] [2] [4, 121638843] =
      some (.ok (List.replicate 32 4), [(1, 1)]) ∧
    ProverS.ietf_vrf_sign ToyA ⟨0, 0, [⟨0⟩]⟩ [1] [3] = .ok [4, 146506818] ∧
    VerifierS.ietf_vrf_verify ToyA ⟨3, [⟨0⟩]⟩ [1] [3] [4, 146506818] 0 =
      .ok (List.replicate 32 4) ∧
    (List.replicate 32 4 : Bytes) = List.replicate 32 4 :=
  ⟨rfl, rfl, rfl, rfl,
    c1_cross_mode_equality ToyA (fun _ _ => rfl) (fun _ _ => rfl)
      ⟨0, 0, [⟨0⟩]⟩ ⟨0, 0, [⟨0⟩]⟩ rfl [] [(1, 1)] [] [(1, 1)] ⟨3, [⟨0⟩]⟩ ⟨3, [⟨0⟩]⟩
      [1] [2] [2] [3] [3] [4, 121638843] [4, 146506818]
      (List.replicate 32 4) (List.replicate 32 4) 0 rfl rfl rfl rfl⟩

/-- C2: ring round-trip on the `lib.rs` engine (the pair behind the
`generate_ring_signature` / `verify_ring_signature` C ABI).  With a
round-tripping codec and a complete backend ring prover, for a prover
whose index is its true position in the ring, sign-then-verify succeeds
and returns the truncated hash of the VRF output - an expression that does
not mention the aux data, so the returned 32-byte value is identical
across repeated rounds and independent of the aux content, shown here for
two arbitrary aux values. -/
theorem c2_ring_round_trip (B : Backend)
    (hrt : ∀ o p, B.deser_ring_sig (B.ser_output o ++ B.ser_rproof p) = some (o, p))
    (hcomp : ∀ (ctx : B.Ctx) (pts : List B.Pt) (idx : Nat) (s : B.Secret)
      (input : B.InputP) (aux : Bytes),
      pts.get? idx = some (B.secret_public s) →
      B.ring_verify input (B.secret_output s input) aux
        (B.ring_prove s input (B.secret_output s input) aux
          (B.mk_prover ctx (B.prover_key ctx pts) idx))
        (B.mk_verifier ctx (B.vk_from_commitment ctx
          (B.commitment_of (B.verifier_key ctx pts)))) = true)
    (ring : List (PublicK B)) (secret : B.Secret) (idx : Nat)
    (hpos : (ring.map PublicK.pt).get? idx = some (B.secret_public secret))
    (V : VerifierS B) (hV : VerifierS.lib_new B ring = some V)
    (inp aux aux2 : Bytes) :
    ∃ sig sig2,
      ProverS.lib_ring_vrf_sign B (ProverS.new B ring secret idx) inp aux = some sig ∧
      VerifierS.lib_ring_vrf_verify B V inp aux sig =
        some (.ok ((B.output_hash (B.secret_output secret
          (B.vrf_input_point inp))).take 32)) ∧
      ProverS.lib_ring_vrf_sign B (ProverS.new B ring secret idx) inp aux2 = some sig2 ∧
      VerifierS.lib_ring_vrf_verify B V inp aux2 sig2 =
        some (.ok ((B.output_hash (B.secret_output secret
          (B.vrf_input_point inp))).take 32)) := by
  simp only [VerifierS.lib_new] at hV
  cases hctx : lib_ring_context B with
  | none => rw [hctx] at hV; cases hV
  | some c =>
    rw [hctx] at hV
    have hV' := Option.some.inj hV
    subst hV'
    have key : ∀ a : Bytes, ∃ sig,
        ProverS.lib_ring_vrf_sign B (ProverS.new B ring secret idx) inp a = some sig ∧
        VerifierS.lib_ring_vrf_verify B
          ⟨B.commitment_of (B.verifier_key c (ring.map PublicK.pt)), ring⟩ inp a sig =
          some (.ok ((B.output_hash (B.secret_output secret
            (B.vrf_input_point inp))).take 32)) := by
      intro a
      refine ⟨B.ser_output (B.secret_output secret (B.vrf_input_point inp)) ++
        B.ser_rproof (B.ring_prove secret (B.vrf_input_point inp)
          (B.secret_output secret (B.vrf_input_point inp)) a
          (B.mk_prover c (B.prover_key c (ring.map PublicK.pt)) idx)), ?_, ?_⟩
      · simp only [ProverS.lib_ring_vrf_sign, ProverS.new, hctx]
      · simp only [VerifierS.lib_ring_vrf_verify, ProverS.new, hrt, hctx]
        rw [hcomp c (ring.map PublicK.pt) idx secret (B.vrf_input_point inp) a hpos]
        simp
    obtain ⟨sig1, hs1, hv1⟩ := key aux
    obtain ⟨sig2, hs2, hv2⟩ := key aux2
    exact ⟨sig1, sig2, hs1, hv1, hs2, hv2⟩

/-- The toy backend's ring prover is complete: its verifier re-checks
exactly the transcript the prover builds. -/
theorem toyA_complete : ∀ (ctx : ToyA.Ctx) (pts : List ToyA.Pt) (idx : Nat)
    (s : ToyA.Secret) (input : ToyA.InputP) (aux : Bytes),
    pts.get? idx = some (ToyA.secret_public s) →
    ToyA.ring_verify input (ToyA.secret_output s input) aux
      (ToyA.ring_prove s input (ToyA.secret_output s input) aux
        (ToyA.mk_prover ctx (ToyA.prover_key ctx pts) idx))
      (ToyA.mk_verifier ctx (ToyA.vk_from_commitment ctx
        (ToyA.commitment_of (ToyA.verifier_key ctx pts)))) = true := by
  intro ctx pts idx s input aux _
  simp only [ToyA, toyRingVerify, decide_eq_true_eq]

/-- C2 witness: a one-key ring signed at its true index, two rounds with
different aux data, both verifying to the same hash. -/
theorem c2_witness :
    ((([⟨0⟩] : List (PublicK ToyA)).map PublicK.pt).get? 0 =
      some (ToyA.secret_public 0)) ∧
    VerifierS.lib_new ToyA [⟨0⟩] = some ⟨1047553, [⟨0⟩]⟩ ∧
    (∃ sig sig2,
      ProverS.lib_ring_vrf_sign ToyA (ProverS.new ToyA [⟨0⟩] 0 0) [1] [2] = some sig ∧
      VerifierS.lib_ring_vrf_verify ToyA ⟨1047553, [⟨0⟩]⟩ [1] [2] sig =
        some (.ok ((ToyA.output_hash
          (ToyA.secret_output 0 (ToyA.vrf_input_point [1]))).take 32)) ∧
      ProverS.lib_ring_vrf_sign ToyA (ProverS.new ToyA [⟨0⟩] 0 0) [1] [3] = some sig2 ∧
      VerifierS.lib_ring_vrf_verify ToyA ⟨1047553, [⟨0⟩]⟩ [1] [3] sig2 =
        some (.ok ((ToyA.output_hash
          (ToyA.secret_output 0 (ToyA.vrf_input_point [1]))).take 32))) :=
  ⟨rfl, rfl, c2_ring_round_trip ToyA (fun _ _ => rfl) toyA_complete
    [⟨0⟩] 0 0 rfl ⟨1047553, [⟨0⟩]⟩ rfl [1] [2] [3]⟩

/-- C5 (amended): the `ring_vrf.rs` signer obtains its RingContext for
ring size exactly `ring.len()` from the LRU cache and scopes the proving
key to the ring's points point-for-point in order: under the cache
invariant its result coincides with the spec's reference signer, which
derives the context for `ring.len()` freshly.  The `lib.rs` signer cited
by the same claim does not - see the counterexample. -/
theorem c5_sign_uses_ring_sized_context (B : Backend) (st : CacheSt B)
    (hgood : cacheGood B st) (P : ProverS B) (inp aux : Bytes) :
    (ProverS.ring_vrf_sign B st P inp aux).map Prod.fst =
      (spec_ring_vrf_sign B P inp aux).map Except.ok := by
  simp only [ProverS.ring_vrf_sign, spec_ring_vrf_sign, List.length_map]
  cases hfs : B.from_srs P.ring.length with
  | none =>
    have hlk : lookupKey st P.ring.length = none := by
      cases hf : lookupKey st P.ring.length with
      | none => rfl
      | some c =>
        have h2 : B.from_srs P.ring.length = some c :=
          hgood.2.1 _ (lookupKey_mem hf)
        rw [hfs] at h2
        exact Option.noConfusion h2
    unfold ring_context
    rw [hlk, hfs]
    rfl
  | some c =>
    obtain ⟨st2, hrc⟩ := ring_context_of_good hgood hfs
    rw [hrc]
    rfl

/-- C5 counterexample: the `lib.rs` signer cited by the claim uses the
fixed 1023-sized singleton context whatever the ring size; on a toy
backend whose proofs embed the context, signing a 4-key ring produces a
different signature from the ring-sized derivation the claim requires. -/
theorem c5_counterexample :
    ProverS.lib_ring_vrf_sign ToyA ⟨0, 0, [⟨0⟩, ⟨0⟩, ⟨0⟩, ⟨0⟩]⟩ [1] [] ≠
      spec_ring_vrf_sign ToyA ⟨0, 0, [⟨0⟩, ⟨0⟩, ⟨0⟩, ⟨0⟩]⟩ [1] [] := by decide

/-- C5 witness: a 2-key ring signed from the empty cache. -/
theorem c5_witness :
    cacheGood ToyA ([] : CacheSt ToyA) ∧
      (ProverS.ring_vrf_sign ToyA [] ⟨0, 0, [⟨0⟩, ⟨0⟩]⟩ [1] []).map Prod.fst =
        (spec_ring_vrf_sign ToyA ⟨0, 0, [⟨0⟩, ⟨0⟩]⟩ [1] []).map Except.ok :=
  ⟨⟨by simp, by simp, by simp⟩,
    c5_sign_uses_ring_sized_context ToyA [] ⟨by simp, by simp, by simp⟩
      ⟨0, 0, [⟨0⟩, ⟨0⟩]⟩ [1] []⟩

/-- C8: with the backend's fixed compressed sizes (32-byte output,
752-byte ring proof - together the 784 bytes of a Ring signature), every
buffer the `lib.rs` signer produces is exactly 784 bytes, the
`generate_ring_signature` assertion passes, and the same buffer is
written out - for every ring, prover index, input and aux data. -/
theorem c8_signature_784 (B : Backend)
    (hO : ∀ o, (B.ser_output o).length = 32)
    (hP : ∀ p, (B.ser_rproof p).length = 752)
    (c : B.Ctx) (hctx : B.from_srs RING_SIZE = some c)
    (ring : List (PublicK B)) (inp aux : Bytes) (idx : Nat) (secret : B.Secret) :
    ∃ sig,
      ProverS.lib_ring_vrf_sign B (ProverS.new B ring secret idx) inp aux = some sig ∧
      sig.length = 784 ∧
      generate_ring_signature B ring inp aux idx secret = some sig := by
  have hsig : ProverS.lib_ring_vrf_sign B (ProverS.new B ring secret idx) inp aux =
      some (B.ser_output (B.secret_output secret (B.vrf_input_point inp)) ++
        B.ser_rproof (B.ring_prove secret (B.vrf_input_point inp)
          (B.secret_output secret (B.vrf_input_point inp)) aux
          (B.mk_prover c (B.prover_key c (ring.map PublicK.pt)) idx))) := by
    simp only [ProverS.lib_ring_vrf_sign, ProverS.new, lib_ring_context, hctx]
  have hlen : (B.ser_output (B.secret_output secret (B.vrf_input_point inp)) ++
      B.ser_rproof (B.ring_prove secret (B.vrf_input_point inp)
        (B.secret_output secret (B.vrf_input_point inp)) aux
        (B.mk_prover c (B.prover_key c (ring.map PublicK.pt)) idx))).length = 784 := by
    rw [List.length_append, hO, hP]
  refine ⟨_, hsig, hlen, ?_⟩
  unfold generate_ring_signature
  rw [hsig]
  simp [hlen]

/-- Every toy 32-limb output encoding has length 32. -/
theorem toy784_ser_output_len : ∀ o, (Toy784.ser_output o).length = 32 := by
  intro o
  simp [Toy784]

/-- Every toy 752-limb ring-proof encoding has length 752. -/
theorem toy784_ser_rproof_len : ∀ p, (Toy784.ser_rproof p).length = 752 := by
  intro p
  simp [Toy784]

/-- C8 witness: a concrete 1-key ring on the fixed-width toy backend. -/
theorem c8_witness :
    Toy784.from_srs RING_SIZE = some 1023 ∧
    (∃ sig,
      ProverS.lib_ring_vrf_sign Toy784 (ProverS.new Toy784 [⟨0⟩] 0 0) [1] [2] =
        some sig ∧
      sig.length = 784 ∧
      generate_ring_signature Toy784 [⟨0⟩] [1] [2] 0 0 = some sig) :=
  ⟨rfl, c8_signature_784 Toy784 toy784_ser_output_len toy784_ser_rproof_len
    1023 rfl [⟨0⟩] [1] [2] 0 0⟩

/-- Core of the `ed25519_verify` contract once the null-pointer checks
have passed: the result is decided by key parsing and the ZIP-215 check. -/
theorem ed25519_verify_core (E : Ed25519Backend) (pkb sigb : Bytes)
    (message : Option Bytes) (message_len : Nat)
    (hskip : (message.isNone && decide (0 < message_len)) = false) :
    (ed25519_verify E (some pkb) (some sigb) message message_len = 0 ∨
      ed25519_verify E (some pkb) (some sigb) message message_len = -1) ∧
    (ed25519_verify E (some pkb) (some sigb) message message_len = 0 ↔
      ed25519_valid E (some pkb) (some sigb) message message_len) := by
  have hmsg : ¬(message = none ∧ 0 < message_len) := by
    rintro ⟨h1, h2⟩
    rw [h1] at hskip
    simp [h2] at hskip
  have hred : ed25519_verify E (some pkb) (some sigb) message message_len =
      (match E.vk_try_from (pkb.take 32) with
      | none => -1
      | some vk => if E.vk_verify vk (sigb.take 64)
          (if message_len = 0 then [] else (message.getD []).take message_len)
          then 0 else -1) := by
    unfold ed25519_verify
    simp [hskip]
  rw [hred]
  cases hvk : E.vk_try_from (pkb.take 32) with
  | none =>
    refine ⟨Or.inr rfl, ?_, ?_⟩
    · intro h
      exact absurd (show (-1 : Int) = 0 from h) (by decide)
    · rintro ⟨pkb2, sigb2, hp, hs, hm, vk, hvk2, hb⟩
      obtain rfl := Option.some.inj hp
      rw [hvk] at hvk2
      exact Option.noConfusion hvk2
  | some vk =>
    cases hb : E.vk_verify vk (sigb.take 64)
        (if message_len = 0 then [] else (message.getD []).take message_len) with
    | true =>
      refine ⟨Or.inl (by simp [hb]), ?_, ?_⟩
      · intro _
        exact ⟨pkb, sigb, rfl, rfl, hmsg, vk, hvk, hb⟩
      · intro _
        simp [hb]
    | false =>
      refine ⟨Or.inr (by simp [hb]), ?_, ?_⟩
      · intro h
        simp [hb] at h
      · rintro ⟨pkb2, sigb2, hp, hs, hm, vk2, hvk2, hb2⟩
        obtain rfl := Option.some.inj hp
        obtain rfl := Option.some.inj hs
        rw [hvk] at hvk2
        obtain rfl := Option.some.inj hvk2
        exact Bool.noConfusion (hb.symm.trans hb2)

/-- C9: `ed25519_verify` returns `0` exactly when the pointers are
non-null, the message is null only if empty, the key parses, and the
signature is ZIP-215-valid for that key and message; it returns `-1` in
every other case - in particular whenever `message` is null with
`message_len > 0` - and it never returns anything else. -/
theorem c9_ed25519_verify_contract (E : Ed25519Backend)
    (public_key signature message : Option Bytes) (message_len : Nat) :
    (ed25519_verify E public_key signature message message_len = 0 ∨
      ed25519_verify E public_key signature message message_len = -1) ∧
    (ed25519_verify E public_key signature message message_len = 0 ↔
      ed25519_valid E public_key signature message message_len) ∧
    (message = none → 0 < message_len →
      ed25519_verify E public_key signature message message_len = -1) := by
  rcases public_key with _ | pkb
  · refine ⟨Or.inr rfl, ⟨?_, ?_⟩, fun _ _ => rfl⟩
    · intro h
      exact absurd (show (-1 : Int) = 0 from h) (by decide)
    · rintro ⟨pkb, sigb, hpk, _⟩
      exact Option.noConfusion hpk
  rcases signature with _ | sigb
  · refine ⟨Or.inr rfl, ⟨?_, ?_⟩, fun _ _ => rfl⟩
    · intro h
      exact absurd (show (-1 : Int) = 0 from h) (by decide)
    · rintro ⟨pkb2, sigb2, _, hsig, _⟩
      exact Option.noConfusion hsig
  rcases message with _ | msgb
  · rcases Nat.eq_zero_or_pos message_len with hz | hpos
    · subst hz
      obtain ⟨h1, h2⟩ := ed25519_verify_core E pkb sigb none 0 (by simp)
      exact ⟨h1, h2, fun _ habs => absurd habs (by decide)⟩
    · have hed : ed25519_verify E (some pkb) (some sigb) none message_len = -1 := by
        unfold ed25519_verify
        simp [hpos]
      refine ⟨Or.inr hed, ⟨?_, ?_⟩, fun _ _ => hed⟩
      · intro h
        rw [hed] at h
        exact absurd h (by decide)
      · rintro ⟨pkb2, sigb2, _, _, hm, _⟩
        exact absurd ⟨rfl, hpos⟩ hm
  · obtain ⟨h1, h2⟩ := ed25519_verify_core E pkb sigb (some msgb) message_len (by simp)
    exact ⟨h1, h2, fun habs _ => Option.noConfusion habs⟩

/-- C9 witness: a null message with positive length is rejected. -/
theorem c9_witness :
    ed25519_verify EdToy (some (List.replicate 32 1))
      (some (List.replicate 64 2)) none 3 = -1 :=
  (c9_ed25519_verify_contract EdToy (some (List.replicate 32 1))
    (some (List.replicate 64 2)) none 3).2.2 rfl (by decide)

/-- C3 (amended): for the `ring_vrf.rs` Verifier every byte string that
fails to deserialize is rejected with the typed
`VerifierError.DeserializationError` - never a panic - in both the Ring
and the IETF format; and, under idealized backend assumptions (canonical
codec; soundness: for the fixed input, aux and verifier only the genuine
signature's bytes are accepted), any corrupted variant of a valid
signature's bytes makes verification return an error: never a panic,
never success.  The `lib.rs` Verifier cited by the same claim instead
panics on malformed bytes - see the counterexample. -/
theorem c3_reject_malformed (B : Backend) (V : VerifierS B) (st : CacheSt B)
    (inp aux sigBad vb cb vbI cbI : Bytes) (k : Nat) (c0 : B.Ctx)
    (hgood : cacheGood B st) (hc0 : B.from_srs V.ring.length = some c0)
    (hbadR : B.deser_ring_sig sigBad = none)
    (hbadI : B.deser_ietf_sig sigBad = none)
    (hne : cb ≠ vb)
    (hcanon : ∀ o p, B.deser_ring_sig cb = some (o, p) →
      B.ser_output o ++ B.ser_rproof p = cb)
    (hsound : ∀ o p, B.ring_verify (B.vrf_input_point inp) o aux p
        (B.mk_verifier c0 (B.vk_from_commitment c0 V.commitment)) = true →
      B.ser_output o ++ B.ser_rproof p = vb)
    (hneI : cbI ≠ vbI)
    (hcanonI : ∀ o p, B.deser_ietf_sig cbI = some (o, p) →
      B.ser_output o ++ B.ser_iproof p = cbI)
    (hsoundI : ∀ o p pk, V.ring.get? k = some pk →
      B.ietf_verify pk.pt (B.vrf_input_point inp) o aux p = true →
      B.ser_output o ++ B.ser_iproof p = vbI) :
    VerifierS.ring_vrf_verify B st V inp aux sigBad =
      some (.error .DeserializationError, st) ∧
    VerifierS.ietf_vrf_verify B V inp aux sigBad k = .error .DeserializationError ∧
    (∃ e st2, VerifierS.ring_vrf_verify B st V inp aux cb = some (.error e, st2)) ∧
    (∃ e, VerifierS.ietf_vrf_verify B V inp aux cbI k = .error e) := by
  refine ⟨?_, ?_, ?_, ?_⟩
  · simp only [VerifierS.ring_vrf_verify, hbadR]
  · simp only [VerifierS.ietf_vrf_verify, hbadI]
  · cases hd : B.deser_ring_sig cb with
    | none =>
      exact ⟨.DeserializationError, st, by simp only [VerifierS.ring_vrf_verify, hd]⟩
    | some op =>
      obtain ⟨o, p⟩ := op
      obtain ⟨st2, hrc⟩ := ring_context_of_good hgood hc0
      cases hb : B.ring_verify (B.vrf_input_point inp) o aux p
          (B.mk_verifier c0 (B.vk_from_commitment c0 V.commitment)) with
      | true =>
        exact absurd ((hcanon o p hd).symm.trans (hsound o p hb)) hne
      | false =>
        refine ⟨.VerificationFailed, st2, ?_⟩
        simp only [VerifierS.ring_vrf_verify, hd, hrc, hb]
        simp
  · cases hd : B.deser_ietf_sig cbI with
    | none =>
      exact ⟨.DeserializationError, by simp only [VerifierS.ietf_vrf_verify, hd]⟩
    | some op =>
      obtain ⟨o, p⟩ := op
      cases hg : V.ring.get? k with
      | none =>
        refine ⟨.InvalidSignerKeyIndex, ?_⟩
        simp only [VerifierS.ietf_vrf_verify, hd, hg]
      | some pk =>
        cases hb : B.ietf_verify pk.pt (B.vrf_input_point inp) o aux p with
        | true =>
          exact absurd ((hcanonI o p hd).symm.trans (hsoundI o p pk hg hb)) hneI
        | false =>
          refine ⟨.VerificationFailed, ?_⟩
          simp only [VerifierS.ietf_vrf_verify, hd, hg, hb]
          simp

/-- C3 counterexample: the claim covers every verifier in the source, but
the `lib.rs` Verifier unwraps `deserialize_compressed`, so on malformed
bytes (here the empty string) both of its verification entry points panic
(modelled `none`) instead of rejecting with a deserialization-failed
condition. -/
theorem c3_counterexample :
    VerifierS.lib_ring_vrf_verify ToyA ⟨3, [⟨0⟩]⟩ [1] [2] [] = none ∧
    VerifierS.lib_ietf_vrf_verify ToyA ⟨3, [⟨0⟩]⟩ [1] [2] [] 0 = none :=
  ⟨rfl, rfl⟩

/-- C3 witness: on the rigid toy backend, the empty string is rejected
with the typed deserialization error and two corrupted variants of the
valid signatures fail with errors rather than panicking or verifying. -/
theorem c3_witness :
    VerifierS.ring_vrf_verify ToyB [] ⟨3, [⟨0⟩]⟩ [1] [2] [] =
      some (.error .DeserializationError, []) ∧
    VerifierS.ietf_vrf_verify ToyB ⟨3, [⟨0⟩]⟩ [1] [2] [] 0 =
      .error .DeserializationError ∧
    (∃ e st2, VerifierS.ring_vrf_verify ToyB [] ⟨3, [⟨0⟩]⟩ [1] [2]
      [5, 121638843] = some (.error e, st2)) ∧
    (∃ e, VerifierS.ietf_vrf_verify ToyB ⟨3, [⟨0⟩]⟩ [1] [2] [4, 0] 0 =
      .error e) :=
  c3_reject_malformed ToyB ⟨3, [⟨0⟩]⟩ [] [1] [2] [] [4, 121638843]
    [5, 121638843] [4, 817218] [4, 0] 0 1
    ⟨by simp, by simp, by simp⟩ rfl rfl rfl (by decide)
    (by
      intro o p h
      obtain ⟨h1, h2⟩ := (Prod.mk.injEq _ _ _ _).mp (Option.some.inj h)
      subst h1
      subst h2
      rfl)
    (by
      intro o p h
      obtain ⟨h1, h2⟩ := of_decide_eq_true h
      subst h1
      subst h2
      rfl)
    (by decide)
    (by
      intro o p h
      obtain ⟨h1, h2⟩ := (Prod.mk.injEq _ _ _ _).mp (Option.some.inj h)
      subst h1
      subst h2
      rfl)
    (by
      intro o p pk hg hb
      obtain rfl := (Option.some.inj hg).symm
      obtain ⟨h1, h2⟩ := of_decide_eq_true hb
      subst h1
      subst h2
      rfl)

/-- C10 witness: a concrete instance of the no-`InvalidProverIndex` fact,
with an out-of-range prover index. -/
theorem c10_witness :
    ProverS.ring_vrf_sign ToyA [] ⟨5, 0, [⟨0⟩]⟩ [1] [2] ≠
      some (.error .InvalidProverIndex, [(1, 1)]) :=
  (c10_no_prover_index_validation ToyA).2.1 [] ⟨5, 0, [⟨0⟩]⟩ [1] [2] [(1, 1)]
